import Mathlib

set_option maxRecDepth 40000

/-!
Verification of the test-scripts core of the customer-relation-database
repository: protocol encoders (Healvet chemistry, PointCare HL7, Exigo
versioned files), the versioned-file emitter, the device orchestrator and
the serial bridges.  Python strings are modelled as `List Char`; the
filesystem and process state are modelled explicitly.
-/

/-- Characters of a string literal; Python strings are modelled as `List Char`. -/
def strL (s : String) : List Char := s.data

/-- Number of (possibly overlapping) start positions at which `pat` occurs in a
list.  For the nonempty patterns used here this is the occurrence count. -/
def countOcc (pat : List Char) : List Char → Nat
  | [] => 0
  | c :: cs => (if pat.isPrefixOf (c :: cs) then 1 else 0) + countOcc pat cs

theorem countOcc_nil (pat : List Char) : countOcc pat [] = 0 := rfl

theorem countOcc_cons (pat : List Char) (c : Char) (cs : List Char) :
    countOcc pat (c :: cs) =
      (if pat.isPrefixOf (c :: cs) then 1 else 0) + countOcc pat cs := rfl

/-- A pattern whose first character never appears in a list does not occur in
it, even when further text follows. -/
theorem countOcc_append_of_not_mem {c : Char} {x : List Char} (p y : List Char)
    (hx : c ∉ x) : countOcc (c :: p) (x ++ y) = countOcc (c :: p) y := by
  induction x with
  | nil => rfl
  | cons a xs ih =>
    have hac : ¬ (c = a) := fun h => hx (h ▸ List.mem_cons_self a xs)
    have hx' : c ∉ xs := fun h => hx (List.mem_cons_of_mem a h)
    rw [List.cons_append, countOcc_cons]
    have hpref : ((c :: p).isPrefixOf (a :: (xs ++ y))) = false := by
      simp [List.isPrefixOf, beq_iff_eq]
      intro h
      exact absurd h hac
    rw [hpref]
    simp [ih hx']

theorem countOcc_eq_zero_of_not_mem {c : Char} {x : List Char} (p : List Char)
    (hx : c ∉ x) : countOcc (c :: p) x = 0 := by
  have := countOcc_append_of_not_mem p [] hx
  simpa using this

/-- Occurrence counting for a two-character pattern distributes over append up
to a possible occurrence straddling the boundary. -/
theorem countOcc_pair_append (a b : Char) (x y : List Char) :
    countOcc [a, b] (x ++ y) =
      countOcc [a, b] x + countOcc [a, b] y +
        (if x.getLast? = some a ∧ y.head? = some b then 1 else 0) := by
  induction x with
  | nil => simp [countOcc]
  | cons c xs ih =>
    cases xs with
    | nil =>
      cases y with
      | nil => simp [countOcc, List.isPrefixOf]
      | cons d ys =>
        have e1 : countOcc [a, b] ([c] ++ (d :: ys)) =
            (if ([a, b].isPrefixOf (c :: d :: ys)) then 1 else 0) +
              countOcc [a, b] (d :: ys) := rfl
        have e2 : countOcc [a, b] [c] = 0 := by
          simp [countOcc, List.isPrefixOf]
        rw [e1, e2]
        by_cases h1 : c = a
        · by_cases h2 : d = b
          · simp [List.isPrefixOf, h1, h2]
            omega
          · simp [List.isPrefixOf, h1, h2]
            exact Ne.symm h2
        · simp [List.isPrefixOf, h1]
          intro h
          exact absurd h.symm h1
    | cons c2 xs2 =>
      simp only [List.cons_append] at ih ⊢
      rw [countOcc_cons _ c (c2 :: (xs2 ++ y)), ih,
        countOcc_cons _ c (c2 :: xs2)]
      have hpre : ([a, b].isPrefixOf (c :: c2 :: (xs2 ++ y))) =
          ([a, b].isPrefixOf (c :: c2 :: xs2)) := by
        simp [List.isPrefixOf]
      rw [hpre, List.getLast?_cons_cons]
      ring

/-- Length of the maximal constant run at the end of a list. -/
def trailingRun (c : Char) (l : List Char) : Nat :=
  (l.reverse.takeWhile (fun d => d = c)).length

/-- A trailing run is decided by any suffix that is not entirely made of the
run character. -/
theorem trailingRun_append (c : Char) (x y : List Char)
    (hy : (y.reverse.takeWhile (fun d => d = c)).length ≠ y.length) :
    trailingRun c (x ++ y) = trailingRun c y := by
  unfold trailingRun
  rw [List.reverse_append, List.takeWhile_append]
  have hylen : y.reverse.length = y.length := List.length_reverse y
  rw [if_neg (by rw [hylen]; exact hy)]

/-- Split a character list at every carriage return, mirroring Python's
`str.split` on a single-character separator (empty pieces are kept). -/
def splitCR : List Char → List (List Char)
  | [] => [[]]
  | c :: cs =>
    if c = '\r' then [] :: splitCR cs
    else
      match splitCR cs with
      | [] => [[c]]
      | p :: ps => (c :: p) :: ps

theorem splitCR_ne_nil (l : List Char) : splitCR l ≠ [] := by
  cases l with
  | nil => simp [splitCR]
  | cons c cs =>
    by_cases h : c = '\r'
    · simp [splitCR, h]
    · simp only [splitCR, if_neg h]
      cases splitCR cs with
      | nil => simp
      | cons p ps => simp

theorem splitCR_cr (y : List Char) : splitCR ('\r' :: y) = [] :: splitCR y := by
  simp [splitCR]

theorem splitCR_cons_of_ne {c : Char} (hc : c ≠ '\r') {cs p : List Char}
    {ps : List (List Char)} (h : splitCR cs = p :: ps) :
    splitCR (c :: cs) = (c :: p) :: ps := by
  simp only [splitCR, if_neg hc, h]

/-- Splitting a concatenation whose left part is separator-free prepends the
left part onto the first piece of the right part. -/
theorem splitCR_append {x y : List Char} (hx : '\r' ∉ x) {p : List Char}
    {ps : List (List Char)} (h : splitCR y = p :: ps) :
    splitCR (x ++ y) = (x ++ p) :: ps := by
  induction x with
  | nil => simpa using h
  | cons c xs ih =>
    have hc : c ≠ '\r' := fun hc => hx (hc ▸ List.mem_cons_self c xs)
    have hxs : '\r' ∉ xs := fun hm => hx (List.mem_cons_of_mem c hm)
    rw [List.cons_append]
    rw [splitCR_cons_of_ne hc (ih hxs)]
    rfl

/-- Splitting `body ++ CR ++ rest` with a separator-free body yields `body` as
the first piece. -/
theorem splitCR_segment {body : List Char} (hb : '\r' ∉ body)
    (rest : List Char) :
    splitCR (body ++ '\r' :: rest) = body :: splitCR rest := by
  have h := splitCR_append hb (splitCR_cr rest)
  simpa using h

/-- One OBX parameter row of the PointCare general profile table
(`test_pointcare.py`, `parameters`). -/
structure ObxParam where
  examNum : String
  paramCode : String
  result : String
  unit : String
  ranges : String
  indicator : String

/-- The 16-row parameter table of `create_hl7_message` for test type 55. -/
def pointcareParameters : List ObxParam :=
  [⟨"1", "GLU", "95.0", "mg/dL", "70-110", "N"⟩,
   ⟨"2", "BUN", "18.0", "mg/dL", "7-27", "N"⟩,
   ⟨"3", "CRE", "1.2", "mg/dL", "0.5-1.8", "N"⟩,
   ⟨"4", "ALB", "3.8", "g/dL", "2.3-4.0", "N"⟩,
   ⟨"5", "TP", "6.5", "g/dL", "5.2-8.2", "N"⟩,
   ⟨"6", "Ca", "10.2", "mg/dL", "9.0-11.3", "N"⟩,
   ⟨"7", "P", "4.5", "mg/dL", "2.5-6.8", "N"⟩,
   ⟨"8", "ALT", "45.0", "U/L", "10-100", "N"⟩,
   ⟨"9", "ALP", "120.0", "U/L", "23-212", "N"⟩,
   ⟨"10", "TBIL", "0.3", "mg/dL", "0.0-0.9", "N"⟩,
   ⟨"11", "CHOL", "180.0", "mg/dL", "110-320", "N"⟩,
   ⟨"12", "AMY", "850.0", "U/L", "500-1500", "N"⟩,
   ⟨"13", "K+", "4.2", "mmol/L", "3.5-5.8", "N"⟩,
   ⟨"14", "Na+", "145.0", "mmol/L", "144-160", "N"⟩,
   ⟨"15", "Cl-", "105.0", "mmol/L", "109-122", "N"⟩,
   ⟨"16", "GLO", "2.7", "g/dL", "2.5-4.5", "N"⟩]

/-- Encoding of one OBX observation segment:
`OBX|{exam_num}|||{param_code}|{result}|{unit}|{ranges}|{indicator}\r`. -/
def mkObx (p : ObxParam) : List Char :=
  strL "OBX|" ++ strL p.examNum ++ strL "|||" ++ strL p.paramCode ++
    strL "|" ++ strL p.result ++ strL "|" ++ strL p.unit ++
    strL "|" ++ strL p.ranges ++ strL "|" ++ strL p.indicator ++ strL "\r"

/-- The fixed MSH header segment of `create_hl7_message`. -/
def hl7Msh : List Char :=
  strL "MSH|^~\\&|PointCare|MNCHIP|||20251125143000||ORU^R01|MSG001|P|2.3\r"

/-- The PID segment: `PID|||{sample_id}|||{patient_id}|||M\r`. -/
def hl7Pid (sampleId patientId : List Char) : List Char :=
  strL "PID|||" ++ sampleId ++ strL "|||" ++ patientId ++ strL "|||M\r"

/-- The OBR segment:
`OBR|||||||{timestamp}||||||||2|||||||||||||||||{test_type}\r`. -/
def hl7Obr (timestamp testType : List Char) : List Char :=
  strL "OBR|||||||" ++ timestamp ++ strL "||||||||2|||||||||||||||||" ++
    testType ++ strL "\r"

/-- Embeds `create_hl7_message` of `test_pointcare.py`: header, patient and
observation-request segments, the 16 OBX segments, then the appended
`"\r\r"` end marker.  The wall-clock timestamp that the Python code reads
inside the function is passed explicitly. -/
def create_hl7_message (timestamp patientId sampleId testType : List Char) :
    List Char :=
  hl7Msh ++ hl7Pid sampleId patientId ++ hl7Obr timestamp testType ++
    (pointcareParameters.map mkObx).flatten ++ strL "\r\r"

/-- The MSH segment without its terminating carriage return. -/
def hl7MshBody : List Char :=
  strL "MSH|^~\\&|PointCare|MNCHIP|||20251125143000||ORU^R01|MSG001|P|2.3"

/-- The PID segment without its terminating carriage return. -/
def hl7PidBody (sampleId patientId : List Char) : List Char :=
  strL "PID|||" ++ sampleId ++ strL "|||" ++ patientId ++ strL "|||M"

/-- The OBR segment without its terminating carriage return. -/
def hl7ObrBody (timestamp testType : List Char) : List Char :=
  strL "OBR|||||||" ++ timestamp ++ strL "||||||||2|||||||||||||||||" ++
    testType

/-- One OBX segment without its terminating carriage return. -/
def mkObxBody (p : ObxParam) : List Char :=
  strL "OBX|" ++ strL p.examNum ++ strL "|||" ++ strL p.paramCode ++
    strL "|" ++ strL p.result ++ strL "|" ++ strL p.unit ++
    strL "|" ++ strL p.ranges ++ strL "|" ++ strL p.indicator

/-- The segments of a message: the nonempty carriage-return-delimited pieces. -/
def hl7Segments (msg : List Char) : List (List Char) :=
  (splitCR msg).filter (fun s => !s.isEmpty)

/-- How many segments carry a given three-letter tag. -/
def countSeg (tag : String) (segs : List (List Char)) : Nat :=
  segs.countP (fun s => (strL tag).isPrefixOf s)

theorem hl7_message_nested (ts pid sid ttype : List Char) :
    create_hl7_message ts pid sid ttype =
      hl7MshBody ++ '\r' :: (hl7PidBody sid pid ++ '\r' ::
        (hl7ObrBody ts ttype ++ '\r' ::
          ((pointcareParameters.map mkObx).flatten ++ strL "\r\r"))) := by
  simp only [create_hl7_message, hl7Msh, hl7Pid, hl7Obr, hl7MshBody,
    hl7PidBody, hl7ObrBody]
  rw [show strL "MSH|^~\\&|PointCare|MNCHIP|||20251125143000||ORU^R01|MSG001|P|2.3\r" =
    strL "MSH|^~\\&|PointCare|MNCHIP|||20251125143000||ORU^R01|MSG001|P|2.3" ++ ['\r'] from rfl]
  rw [show strL "|||M\r" = strL "|||M" ++ ['\r'] from rfl]
  rw [show strL "\r" = ['\r'] from rfl]
  simp [List.append_assoc]

theorem isPrefixOf_cons_of_head_ne {a b : Char} (h : ¬ a = b) (p t : List Char) :
    ((a :: p).isPrefixOf (b :: t)) = false := by
  simp [List.isPrefixOf]
  intro hab
  exact absurd hab h

theorem obx_tail_split :
    splitCR ((pointcareParameters.map mkObx).flatten ++ strL "\r\r") =
      pointcareParameters.map mkObxBody ++ [[], [], []] := by
  decide

theorem cr_not_mem_mshBody : '\r' ∉ hl7MshBody := by decide

theorem cr_not_mem_pidBody {sid pid : List Char} (hsid : '\r' ∉ sid)
    (hpid : '\r' ∉ pid) : '\r' ∉ hl7PidBody sid pid := by
  have l1 : '\r' ∉ strL "PID|||" := by decide
  have l2 : '\r' ∉ strL "|||" := by decide
  have l3 : '\r' ∉ strL "|||M" := by decide
  simp [hl7PidBody, List.mem_append, l1, l2, l3, hsid, hpid]

theorem cr_not_mem_obrBody {ts ttype : List Char} (hts : '\r' ∉ ts)
    (httype : '\r' ∉ ttype) : '\r' ∉ hl7ObrBody ts ttype := by
  have l1 : '\r' ∉ strL "OBR|||||||" := by decide
  have l2 : '\r' ∉ strL "||||||||2|||||||||||||||||" := by decide
  simp [hl7ObrBody, List.mem_append, l1, l2, hts, httype]

theorem hl7_split (ts pid sid ttype : List Char) (hts : '\r' ∉ ts)
    (hpid : '\r' ∉ pid) (hsid : '\r' ∉ sid) (httype : '\r' ∉ ttype) :
    splitCR (create_hl7_message ts pid sid ttype) =
      hl7MshBody :: hl7PidBody sid pid :: hl7ObrBody ts ttype ::
        (pointcareParameters.map mkObxBody ++ [[], [], []]) := by
  rw [hl7_message_nested]
  rw [splitCR_segment cr_not_mem_mshBody]
  rw [splitCR_segment (cr_not_mem_pidBody hsid hpid)]
  rw [splitCR_segment (cr_not_mem_obrBody hts httype)]
  rw [obx_tail_split]

theorem hl7_segments_eq (ts pid sid ttype : List Char) (hts : '\r' ∉ ts)
    (hpid : '\r' ∉ pid) (hsid : '\r' ∉ sid) (httype : '\r' ∉ ttype) :
    hl7Segments (create_hl7_message ts pid sid ttype) =
      hl7MshBody :: hl7PidBody sid pid :: hl7ObrBody ts ttype ::
        pointcareParameters.map mkObxBody := by
  unfold hl7Segments
  rw [hl7_split ts pid sid ttype hts hpid hsid httype]
  have h1 : (!hl7MshBody.isEmpty) = true := by decide
  have h2 : (!(hl7PidBody sid pid).isEmpty) = true := rfl
  have h3 : (!(hl7ObrBody ts ttype).isEmpty) = true := rfl
  have h4 : (pointcareParameters.map mkObxBody ++ [[], [], []]).filter
      (fun s => !s.isEmpty) = pointcareParameters.map mkObxBody := by decide
  simp only [List.filter_cons, h1, h2, h3, if_true, h4]

theorem isPrefixOf_append_of_le {p a : List Char} (h : p.length ≤ a.length)
    (x : List Char) : (p.isPrefixOf (a ++ x)) = p.isPrefixOf a := by
  induction p generalizing a with
  | nil => simp [List.isPrefixOf]
  | cons c cs ih =>
    cases a with
    | nil => simp at h
    | cons b bs =>
      simp only [List.cons_append, List.isPrefixOf, List.append_eq]
      rw [ih (Nat.le_of_succ_le_succ (by simpa using h))]

theorem tag_on_pidBody (tag : String)
    (h : (strL tag).length ≤ (strL "PID|||").length) (sid pid : List Char) :
    ((strL tag).isPrefixOf (hl7PidBody sid pid)) =
      (strL tag).isPrefixOf (strL "PID|||") := by
  unfold hl7PidBody
  rw [List.append_assoc, List.append_assoc]
  exact isPrefixOf_append_of_le h _

theorem tag_on_obrBody (tag : String)
    (h : (strL tag).length ≤ (strL "OBR|||||||").length) (ts ttype : List Char) :
    ((strL tag).isPrefixOf (hl7ObrBody ts ttype)) =
      (strL tag).isPrefixOf (strL "OBR|||||||") := by
  unfold hl7ObrBody
  rw [List.append_assoc]
  exact isPrefixOf_append_of_le h _

theorem hl7_refactor (ts pid sid ttype : List Char) :
    create_hl7_message ts pid sid ttype =
      (hl7Msh ++ hl7Pid sid pid ++ hl7Obr ts ttype) ++
        ((pointcareParameters.map mkObx).flatten ++ strL "\r\r") := by
  simp [create_hl7_message, List.append_assoc]

/-- C1 (amended): the encoder appends the two-carriage-return end marker after
the final segment's own terminating carriage return, so every complete
message has the suffix `"\r\r"` but its trailing run of carriage returns has
length exactly three, not two. -/
theorem hl7_terminator_amended (ts pid sid ttype : List Char) :
    (∃ core, create_hl7_message ts pid sid ttype = core ++ strL "\r\r") ∧
    trailingRun '\r' (create_hl7_message ts pid sid ttype) = 3 := by
  constructor
  · exact ⟨hl7Msh ++ hl7Pid sid pid ++ hl7Obr ts ttype ++
      (pointcareParameters.map mkObx).flatten,
      by simp [create_hl7_message, List.append_assoc]⟩
  · rw [hl7_refactor, trailingRun_append _ _ _ (by decide)]
    decide

/-- C1 (counterexample): at a concrete input the complete encoded message does
not end with exactly two consecutive carriage returns — the trailing run of
carriage returns has length three (the final OBX segment's terminator plus
the appended `"\r\r"` marker). -/
theorem hl7_terminator_counterexample :
    ¬ (trailingRun '\r' (create_hl7_message (strL "20251012120000")
        (strL "DOG123") (strL "PC001") (strL "55")) = 2) ∧
    trailingRun '\r' (create_hl7_message (strL "20251012120000")
        (strL "DOG123") (strL "PC001") (strL "55")) = 3 := by
  decide

/-- C3: for separator-free inputs, the encoded message consists of exactly one
MSH header segment, one PID patient segment, one OBR observation-request
segment carrying the requested test-type code, and exactly sixteen OBX
observation segments, in exactly that fixed order. -/
theorem hl7_general_profile_structure (ts pid sid ttype : List Char)
    (hts : '\r' ∉ ts) (hpid : '\r' ∉ pid) (hsid : '\r' ∉ sid)
    (httype : '\r' ∉ ttype) :
    hl7Segments (create_hl7_message ts pid sid ttype) =
      hl7MshBody :: hl7PidBody sid pid :: hl7ObrBody ts ttype ::
        pointcareParameters.map mkObxBody ∧
    (pointcareParameters.map mkObxBody).length = 16 ∧
    countSeg "MSH" (hl7Segments (create_hl7_message ts pid sid ttype)) = 1 ∧
    countSeg "PID" (hl7Segments (create_hl7_message ts pid sid ttype)) = 1 ∧
    countSeg "OBR" (hl7Segments (create_hl7_message ts pid sid ttype)) = 1 ∧
    countSeg "OBX" (hl7Segments (create_hl7_message ts pid sid ttype)) = 16 ∧
    hl7ObrBody ts ttype =
      strL "OBR|||||||" ++ ts ++ strL "||||||||2|||||||||||||||||" ++ ttype := by
  have hseg := hl7_segments_eq ts pid sid ttype hts hpid hsid httype
  refine ⟨hseg, by decide, ?_, ?_, ?_, ?_, rfl⟩
  · have fB := tag_on_pidBody "MSH" (by decide) sid pid
    have fC := tag_on_obrBody "MSH" (by decide) ts ttype
    unfold countSeg
    rw [hseg]
    simp only [List.countP_cons, fB, fC]
    decide
  · have fB := tag_on_pidBody "PID" (by decide) sid pid
    have fC := tag_on_obrBody "PID" (by decide) ts ttype
    unfold countSeg
    rw [hseg]
    simp only [List.countP_cons, fB, fC]
    decide
  · have fB := tag_on_pidBody "OBR" (by decide) sid pid
    have fC := tag_on_obrBody "OBR" (by decide) ts ttype
    unfold countSeg
    rw [hseg]
    simp only [List.countP_cons, fB, fC]
    decide
  · have fB := tag_on_pidBody "OBX" (by decide) sid pid
    have fC := tag_on_obrBody "OBX" (by decide) ts ttype
    unfold countSeg
    rw [hseg]
    simp only [List.countP_cons, fB, fC]
    decide

/-- Witness: C3 instantiated at concrete carriage-return-free inputs. -/
theorem hl7_general_profile_structure_witness :
    ('\r' ∉ strL "20251012120000" ∧ '\r' ∉ strL "DOG123" ∧
      '\r' ∉ strL "PC001" ∧ '\r' ∉ strL "55") ∧
    (hl7Segments (create_hl7_message (strL "20251012120000") (strL "DOG123")
        (strL "PC001") (strL "55")) =
      hl7MshBody :: hl7PidBody (strL "PC001") (strL "DOG123") ::
        hl7ObrBody (strL "20251012120000") (strL "55") ::
        pointcareParameters.map mkObxBody ∧
    (pointcareParameters.map mkObxBody).length = 16 ∧
    countSeg "MSH" (hl7Segments (create_hl7_message (strL "20251012120000")
      (strL "DOG123") (strL "PC001") (strL "55"))) = 1 ∧
    countSeg "PID" (hl7Segments (create_hl7_message (strL "20251012120000")
      (strL "DOG123") (strL "PC001") (strL "55"))) = 1 ∧
    countSeg "OBR" (hl7Segments (create_hl7_message (strL "20251012120000")
      (strL "DOG123") (strL "PC001") (strL "55"))) = 1 ∧
    countSeg "OBX" (hl7Segments (create_hl7_message (strL "20251012120000")
      (strL "DOG123") (strL "PC001") (strL "55"))) = 16 ∧
    hl7ObrBody (strL "20251012120000") (strL "55") =
      strL "OBR|||||||" ++ strL "20251012120000" ++
        strL "||||||||2|||||||||||||||||" ++ strL "55") :=
  ⟨⟨by decide, by decide, by decide, by decide⟩,
    hl7_general_profile_structure (strL "20251012120000") (strL "DOG123")
      (strL "PC001") (strL "55") (by decide) (by decide) (by decide)
      (by decide)⟩

/-- Character of a single decimal digit. -/
def decChar : Nat → Char
  | 0 => '0'
  | 1 => '1'
  | 2 => '2'
  | 3 => '3'
  | 4 => '4'
  | 5 => '5'
  | 6 => '6'
  | 7 => '7'
  | 8 => '8'
  | _ => '9'

/-- Fuel-driven digit expansion; with fuel at least the digit count it agrees
with decimal printing. -/
def decDigitsAux : Nat → Nat → List Char
  | 0, n => [decChar n]
  | fuel + 1, n =>
    if n < 10 then [decChar n]
    else decDigitsAux fuel (n / 10) ++ [decChar (n % 10)]

/-- Decimal digit characters of a natural number, as Python's `%d` prints it. -/
def decDigits (n : Nat) : List Char := decDigitsAux n n

/-- Zero padding to width six, as Python's `f"{k:06d}"` formats a
nonnegative integer. -/
def pad6 (n : Nat) : List Char :=
  List.replicate (6 - (decDigits n).length) '0' ++ decDigits n

theorem decChar_isDigit (d : Nat) : (decChar d).isDigit = true := by
  unfold decChar
  split <;> decide

theorem decDigitsAux_digits (fuel : Nat) :
    ∀ n, ∀ c ∈ decDigitsAux fuel n, c.isDigit = true := by
  induction fuel with
  | zero =>
    intro n c hc
    rw [List.mem_singleton.1 hc]
    exact decChar_isDigit n
  | succ f ih =>
    intro n c hc
    rw [decDigitsAux] at hc
    by_cases h : n < 10
    · rw [if_pos h, List.mem_singleton] at hc
      exact hc ▸ decChar_isDigit n
    · rw [if_neg h, List.mem_append, List.mem_singleton] at hc
      rcases hc with hc | hc
      · exact ih (n / 10) c hc
      · exact hc ▸ decChar_isDigit (n % 10)

theorem decDigits_digits (n : Nat) : ∀ c ∈ decDigits n, c.isDigit = true :=
  decDigitsAux_digits n n

theorem pad6_digits (n : Nat) : ∀ c ∈ pad6 n, c.isDigit = true := by
  intro c hc
  rcases List.mem_append.1 hc with hc | hc
  · rw [List.eq_of_mem_replicate hc]
    decide
  · exact decDigits_digits n c hc

theorem digit_ne_hash {c : Char} (h : c.isDigit = true) : ¬ c = '#' := by
  intro e
  rw [e] at h
  exact absurd h (by decide)

theorem digit_ne_E {c : Char} (h : c.isDigit = true) : ¬ c = 'E' := by
  intro e
  rw [e] at h
  exact absurd h (by decide)

theorem hash_not_mem_of_digits {x : List Char}
    (h : ∀ c ∈ x, c.isDigit = true) : '#' ∉ x := by
  intro hm
  exact digit_ne_hash (h '#' hm) rfl

theorem e_not_mem_of_digits {x : List Char}
    (h : ∀ c ∈ x, c.isDigit = true) : 'E' ∉ x := by
  intro hm
  exact digit_ne_E (h 'E' hm) rfl

theorem countOcc_EE_of_digits {x : List Char}
    (h : ∀ c ∈ x, c.isDigit = true) : countOcc (strL "EE") x = 0 := by
  rw [show strL "EE" = 'E' :: ['E'] from rfl]
  exact countOcc_eq_zero_of_not_mem _ (e_not_mem_of_digits h)

/-- The fixed Healvet chemistry panel table `CHEMISTRY_PANEL` of
`test_healvet_full_panel.py`: `(parameter_code, result_value, unit)`. -/
def CHEMISTRY_PANEL : List (String × String × String) :=
  [("T4-1", "25.3", "nmol/L"),
   ("TSH-1", "0.15", "mIU/L"),
   ("Cortisol-1", "85.0", "nmol/L"),
   ("cCRP", "5.2", "mg/L"),
   ("D-Dimer", "120.0", "ng/mL"),
   ("SAA", "3.1", "mg/L")]

/-- One per-sample field group of `send_chemistry_panel` (the loop body):
`#AFS1000&{sample_id}&{result}&{timestamp}&&{param_code}&{patient_id}&&M&1`,
with the `EE` marker deliberately left off. -/
def healvetGroup (sampleId result timestamp paramCode patientId : List Char) :
    List Char :=
  strL "#AFS1000&" ++ sampleId ++ strL "&" ++ result ++ strL "&" ++
    timestamp ++ strL "&&" ++ paramCode ++ strL "&" ++ patientId ++
    strL "&&M&1"

/-- Concatenated field groups of the panel, sample ids being
`f"{base_sample_id + idx:06d}"` with `idx` enumerated from the given start. -/
def healvetGroups (baseId : Nat) (timestamp patientId : List Char) :
    List (String × String × String) → Nat → List Char
  | [], _ => []
  | (param, res, _u) :: rest, idx =>
    healvetGroup (pad6 (baseId + idx)) (strL res) timestamp (strL param)
        patientId ++
      healvetGroups baseId timestamp patientId rest (idx + 1)

/-- Embeds the `complete_transmission` built by `send_chemistry_panel`: all
field groups concatenated (enumerated from 1), then a single `&EE` appended. -/
def send_chemistry_panel_transmission (panel : List (String × String × String))
    (baseId : Nat) (timestamp patientId : List Char) : List Char :=
  healvetGroups baseId timestamp patientId panel 1 ++ strL "&EE"

theorem countOcc_EE_app_last {x y : List Char}
    (hx : countOcc (strL "EE") x = 0) (hy : countOcc (strL "EE") y = 0)
    (hlast : x.getLast? = some '&') : countOcc (strL "EE") (x ++ y) = 0 := by
  rw [show strL "EE" = ['E', 'E'] from rfl] at hx hy ⊢
  rw [countOcc_pair_append, hx, hy, if_neg]
  intro h
  rw [hlast] at h
  exact absurd h.1 (by decide)

theorem countOcc_EE_app_head {x y : List Char}
    (hx : countOcc (strL "EE") x = 0) (hy : countOcc (strL "EE") y = 0)
    (hhead : y.head? = some '&') : countOcc (strL "EE") (x ++ y) = 0 := by
  rw [show strL "EE" = ['E', 'E'] from rfl] at hx hy ⊢
  rw [countOcc_pair_append, hx, hy, if_neg]
  intro h
  rw [hhead] at h
  exact absurd h.2 (by decide)

theorem getLast?_append_of_last {l' : List Char} {a : Char}
    (h : l'.getLast? = some a) (x : List Char) :
    (x ++ l').getLast? = some a := by
  rw [List.getLast?_append, h]
  rfl

/-- No `EE` occurs inside one field group when none occurs inside its free
fields. -/
theorem healvetGroup_EE_free {sid res ts param pat : List Char}
    (hsid : countOcc (strL "EE") sid = 0) (hres : countOcc (strL "EE") res = 0)
    (hts : countOcc (strL "EE") ts = 0) (hparam : countOcc (strL "EE") param = 0)
    (hpat : countOcc (strL "EE") pat = 0) :
    countOcc (strL "EE") (healvetGroup sid res ts param pat) = 0 := by
  unfold healvetGroup
  refine countOcc_EE_app_head ?_ (by decide) rfl
  refine countOcc_EE_app_last ?_ hpat (getLast?_append_of_last (by decide) _)
  refine countOcc_EE_app_head ?_ (by decide) rfl
  refine countOcc_EE_app_last ?_ hparam (getLast?_append_of_last (by decide) _)
  refine countOcc_EE_app_head ?_ (by decide) rfl
  refine countOcc_EE_app_last ?_ hts (getLast?_append_of_last (by decide) _)
  refine countOcc_EE_app_head ?_ (by decide) rfl
  refine countOcc_EE_app_last ?_ hres (getLast?_append_of_last (by decide) _)
  refine countOcc_EE_app_head ?_ (by decide) rfl
  exact countOcc_EE_app_last (by decide) hsid (by decide)

theorem healvetGroup_last (sid res ts param pat : List Char) :
    (healvetGroup sid res ts param pat).getLast? = some '1' := by
  unfold healvetGroup
  exact getLast?_append_of_last (by decide) _

theorem healvetGroup_hash_free {sid res ts param pat : List Char}
    (hsid : '#' ∉ sid) (hres : '#' ∉ res) (hts : '#' ∉ ts)
    (hparam : '#' ∉ param) (hpat : '#' ∉ pat) :
    '#' ∉ (strL "AFS1000&" ++ sid ++ strL "&" ++ res ++ strL "&" ++
      ts ++ strL "&&" ++ param ++ strL "&" ++ pat ++ strL "&&M&1") := by
  have l1 : '#' ∉ strL "AFS1000&" := by decide
  have l2 : '#' ∉ strL "&" := by decide
  have l3 : '#' ∉ strL "&&" := by decide
  have l4 : '#' ∉ strL "&&M&1" := by decide
  simp [List.mem_append, l1, l2, l3, l4, hsid, hres, hts, hparam, hpat]

theorem healvetGroup_marker_step {sid res ts param pat : List Char}
    (hsid : '#' ∉ sid) (hres : '#' ∉ res) (hts : '#' ∉ ts)
    (hparam : '#' ∉ param) (hpat : '#' ∉ pat) (rest : List Char) :
    countOcc (strL "#AFS1000") (healvetGroup sid res ts param pat ++ rest) =
      1 + countOcc (strL "#AFS1000") rest := by
  rw [show healvetGroup sid res ts param pat =
    '#' :: (strL "AFS1000&" ++ sid ++ strL "&" ++ res ++ strL "&" ++ ts ++
      strL "&&" ++ param ++ strL "&" ++ pat ++ strL "&&M&1") from rfl]
  rw [List.cons_append, countOcc_cons]
  have hT := healvetGroup_hash_free hsid hres hts hparam hpat
  rw [show strL "#AFS1000" = '#' :: strL "AFS1000" from rfl]
  rw [countOcc_append_of_not_mem (strL "AFS1000") rest hT]
  have hpre : (('#' :: strL "AFS1000").isPrefixOf
      ('#' :: ((strL "AFS1000&" ++ sid ++ strL "&" ++ res ++ strL "&" ++ ts ++
        strL "&&" ++ param ++ strL "&" ++ pat ++ strL "&&M&1") ++ rest))) =
      true := by
    simp only [List.isPrefixOf, List.append_assoc]
    decide
  rw [hpre]
  simp

theorem healvetGroups_marker_count (baseId : Nat) {ts pat : List Char}
    (hts : ∀ c ∈ ts, c.isDigit = true) (hpat : '#' ∉ pat)
    (panel : List (String × String × String))
    (hpanel : ∀ e ∈ panel, '#' ∉ strL e.1 ∧ '#' ∉ strL e.2.1) :
    ∀ idx, countOcc (strL "#AFS1000")
      (healvetGroups baseId ts pat panel idx ++ strL "&EE") = panel.length := by
  induction panel with
  | nil =>
    intro idx
    simp only [healvetGroups, List.nil_append, List.length_nil]
    decide
  | cons e restp ih =>
    intro idx
    obtain ⟨param, res, u⟩ := e
    simp only [healvetGroups, List.length_cons]
    rw [List.append_assoc]
    rw [healvetGroup_marker_step (hash_not_mem_of_digits (pad6_digits _))
      (hpanel (param, res, u) (List.mem_cons_self _ _)).2
      (hash_not_mem_of_digits hts)
      (hpanel (param, res, u) (List.mem_cons_self _ _)).1 hpat]
    rw [ih (fun e he => hpanel e (List.mem_cons_of_mem _ he)) (idx + 1)]
    omega

theorem healvetGroups_EE_count (baseId : Nat) {ts pat : List Char}
    (hts : ∀ c ∈ ts, c.isDigit = true)
    (hpat : countOcc (strL "EE") pat = 0)
    (panel : List (String × String × String))
    (hpanel : ∀ e ∈ panel, countOcc (strL "EE") (strL e.1) = 0 ∧
      countOcc (strL "EE") (strL e.2.1) = 0) :
    ∀ idx, countOcc (strL "EE")
      (healvetGroups baseId ts pat panel idx ++ strL "&EE") = 1 := by
  induction panel with
  | nil =>
    intro idx
    simp only [healvetGroups, List.nil_append]
    decide
  | cons e restp ih =>
    intro idx
    obtain ⟨param, res, u⟩ := e
    simp only [healvetGroups]
    rw [List.append_assoc]
    have hg : countOcc (strL "EE")
        (healvetGroup (pad6 (baseId + idx)) (strL res) ts (strL param) pat) =
        0 :=
      healvetGroup_EE_free (countOcc_EE_of_digits (pad6_digits _))
        (hpanel (param, res, u) (List.mem_cons_self _ _)).2
        (countOcc_EE_of_digits hts)
        (hpanel (param, res, u) (List.mem_cons_self _ _)).1 hpat
    have hr := ih (fun e he => hpanel e (List.mem_cons_of_mem _ he)) (idx + 1)
    rw [show strL "EE" = ['E', 'E'] from rfl] at hg hr ⊢
    rw [countOcc_pair_append, hg, hr, if_neg]
    intro hcontra
    rw [healvetGroup_last] at hcontra
    exact absurd hcontra.1 (by decide)

/-- C2: the encoded panel transmission carries exactly one `EE` terminator,
located at the very end, and exactly one `#AFS1000` start marker per sample,
for any panel whose parameter codes, results and patient id are free of the
marker substrings and any digit-formatted timestamp. -/
theorem healvet_panel_single_terminator
    (panel : List (String × String × String)) (baseId : Nat)
    (ts patient : List Char)
    (hts : ∀ c ∈ ts, c.isDigit = true)
    (hpatEE : countOcc (strL "EE") patient = 0) (hpatH : '#' ∉ patient)
    (hpanel : ∀ e ∈ panel,
      countOcc (strL "EE") (strL e.1) = 0 ∧ '#' ∉ strL e.1 ∧
      countOcc (strL "EE") (strL e.2.1) = 0 ∧ '#' ∉ strL e.2.1) :
    countOcc (strL "EE")
      (send_chemistry_panel_transmission panel baseId ts patient) = 1 ∧
    (∃ core, send_chemistry_panel_transmission panel baseId ts patient =
      core ++ strL "EE") ∧
    countOcc (strL "#AFS1000")
      (send_chemistry_panel_transmission panel baseId ts patient) =
      panel.length := by
  refine ⟨healvetGroups_EE_count baseId hts hpatEE panel
      (fun e he => ⟨(hpanel e he).1, (hpanel e he).2.2.1⟩) 1,
    ⟨healvetGroups baseId ts patient panel 1 ++ strL "&", ?_⟩,
    healvetGroups_marker_count baseId hts hpatH panel
      (fun e he => ⟨(hpanel e he).2.1, (hpanel e he).2.2.2⟩) 1⟩
  unfold send_chemistry_panel_transmission
  rw [List.append_assoc]
  rfl

/-- Witness: C2 applied to the source's own `CHEMISTRY_PANEL` (6 samples),
a digit timestamp and the default patient id. -/
theorem healvet_panel_single_terminator_witness :
    ((∀ c ∈ strL "20251012093000", c.isDigit = true) ∧
      countOcc (strL "EE") (strL "TESTDOG-001") = 0 ∧
      '#' ∉ strL "TESTDOG-001" ∧
      (∀ e ∈ CHEMISTRY_PANEL,
        countOcc (strL "EE") (strL e.1) = 0 ∧ '#' ∉ strL e.1 ∧
        countOcc (strL "EE") (strL e.2.1) = 0 ∧ '#' ∉ strL e.2.1)) ∧
    (countOcc (strL "EE") (send_chemistry_panel_transmission CHEMISTRY_PANEL
      123456 (strL "20251012093000") (strL "TESTDOG-001")) = 1 ∧
    (∃ core, send_chemistry_panel_transmission CHEMISTRY_PANEL 123456
      (strL "20251012093000") (strL "TESTDOG-001") = core ++ strL "EE") ∧
    countOcc (strL "#AFS1000") (send_chemistry_panel_transmission
      CHEMISTRY_PANEL 123456 (strL "20251012093000") (strL "TESTDOG-001")) =
      CHEMISTRY_PANEL.length) :=
  ⟨⟨by decide, by decide, by decide, by decide⟩,
    healvet_panel_single_terminator CHEMISTRY_PANEL 123456
      (strL "20251012093000") (strL "TESTDOG-001") (by decide) (by decide)
      (by decide) (by decide)⟩

/-- Fuel-driven core of Python's `str.replace(pat, "")`: scan left to right,
deleting each non-overlapping occurrence of `pat`.  Fuel at least the length
of the scanned list makes it total. -/
def pyReplaceAux (pat : List Char) : Nat → List Char → List Char
  | _, [] => []
  | 0, s => s
  | fuel + 1, c :: cs =>
    if pat ≠ [] ∧ pat.isPrefixOf (c :: cs) then
      pyReplaceAux pat fuel (cs.drop (pat.length - 1))
    else c :: pyReplaceAux pat fuel cs

/-- Python's `s.replace(pat, "")` (the only replacement the scanner uses). -/
def pyReplace (pat s : List Char) : List Char := pyReplaceAux pat s.length s

/-- Python whitespace accepted by `int()` around the digits (ASCII part). -/
def isPyWS (c : Char) : Bool :=
  c == ' ' || c == '\t' || c == '\n' || c == '\r' || c == '\x0b' || c == '\x0c'

/-- Strip leading and trailing whitespace, as `int()` does before parsing. -/
def stripWS (s : List Char) : List Char :=
  ((s.dropWhile isPyWS).reverse.dropWhile isPyWS).reverse

/-- Numeric value of a digit character. -/
def digitVal (c : Char) : Nat := c.toNat - 48

/-- Digits of a Python integer literal after the first digit: single
underscores are allowed between digits, nothing else. -/
def pyDigitsAux : Nat → List Char → Option Nat
  | acc, [] => some acc
  | acc, c :: rest =>
    if c = '_' then
      match rest with
      | [] => none
      | d :: rest2 =>
        if d.isDigit then pyDigitsAux (acc * 10 + digitVal d) rest2 else none
    else if c.isDigit then pyDigitsAux (acc * 10 + digitVal c) rest
    else none

/-- Unsigned decimal parse of a Python `int()` literal body. -/
def pyDigits : List Char → Option Nat
  | [] => none
  | d :: rest => if d.isDigit then pyDigitsAux (digitVal d) rest else none

/-- Python's `int(s)`: strip whitespace, optional sign, decimal digits with
optional single underscores; `none` models the `ValueError` the scanner
catches. -/
def pyInt (s : List Char) : Option Int :=
  match stripWS s with
  | '+' :: rest => (pyDigits rest).map (fun n => (n : Int))
  | '-' :: rest => (pyDigits rest).map (fun n => -(n : Int))
  | t => (pyDigits t).map (fun n => (n : Int))

/-- The scanning loop of `get_next_version`: for every listed filename that
starts with the base name and ends in `.xml`, delete all occurrences of the
base name and of `.xml`, require a leading `_v`, parse the remainder as a
Python int, and keep the maximum (starting from 0). -/
def scanVersions (base : List Char) (files : List (List Char)) : Int :=
  files.foldl
    (fun mv f =>
      if base.isPrefixOf f && (strL ".xml").isSuffixOf f then
        let vp := pyReplace (strL ".xml") (pyReplace base f)
        if (strL "_v").isPrefixOf vp then
          match pyInt (vp.drop 2) with
          | some v => max mv v
          | none => mv
        else mv
      else mv)
    0

/-- Embeds `get_next_version` of `test_exigo_file_creator.py`; `none` models a
directory that does not exist (the early `return 1`). -/
def get_next_version (dir : Option (List (List Char))) (base : List Char) :
    Int :=
  match dir with
  | none => 1
  | some files => scanVersions base files + 1

/-- Write of `shutil.copy2` into the directory model: any existing entry under
the same name is replaced. -/
def fsWrite (entries : List (List Char × List Char)) (n c : List Char) :
    List (List Char × List Char) :=
  entries.filter (fun e => !(e.1 == n)) ++ [(n, c)]

/-- Lookup of one file's content in the directory model. -/
def fsLookup (entries : List (List Char × List Char)) (n : List Char) :
    Option (List Char) :=
  (entries.find? (fun e => e.1 == n)).map (fun e => e.2)

/-- Python's `str` of the version number interpolated into the filename. -/
def intStr (v : Int) : List Char :=
  if v < 0 then '-' :: decDigits (-v).toNat else decDigits v.toNat

/-- The target filename `f"{base_name}_v{version}.xml"`. -/
def targetName (base : List Char) (v : Int) : List Char :=
  base ++ strL "_v" ++ intStr v ++ strL ".xml"

/-- Embeds `create_versioned_file`: a missing template raises
(`FileNotFoundError`, modelled as the error outcome with the directory left
untouched); otherwise the directory is created if absent, the version is the
caller's or the scanner's next one, and the copy is written.  Returns the
outcome together with the resulting directory state. -/
def create_versioned_file (src : Option (List Char)) (base : List Char)
    (dir : Option (List (List Char × List Char))) (version : Option Int) :
    Except Unit (List Char × Int) × Option (List (List Char × List Char)) :=
  match src with
  | none => (.error (), dir)
  | some content =>
    let entries := dir.getD []
    let v : Int :=
      match version with
      | some v => v
      | none => get_next_version (some (entries.map (fun e => e.1))) base
    let fname := targetName base v
    (.ok (fname, v), some (fsWrite entries fname content))

/-- Embeds the emission loop of `main` in `test_exigo_file_creator.py`:
`count` calls of `create_versioned_file`, threading `current_version`
exactly as the source does (`version + 1` after an auto-detected first
version, `+ 1` afterwards).  Returns the sequence of versions created. -/
def emitLoop (src : Option (List Char)) (base : List Char) :
    Nat → Option Int → Option (List (List Char × List Char)) →
    Except Unit (List Int × Option (List (List Char × List Char)))
  | 0, _, dir => .ok ([], dir)
  | k + 1, cur, dir =>
    match create_versioned_file src base dir cur with
    | (.error _, _) => .error ()
    | (.ok (_fname, v), dir2) =>
      let cur2 : Option Int :=
        match cur with
        | none => some (v + 1)
        | some c => some (c + 1)
      match emitLoop src base k cur2 dir2 with
      | .error _ => .error ()
      | .ok (vs, dfin) => .ok (v :: vs, dfin)

/-- Value of a digit string. -/
def digitsVal (ds : List Char) : Nat :=
  ds.foldl (fun a c => a * 10 + digitVal c) 0

/-- Version number under the claim's filename pattern
`{baseName}_v<digits>.xml`; stated from the claim's wording, to be compared
with what the source's scanner computes. -/
def specVersionOf (base f : List Char) : Option Nat :=
  if f.take base.length = base then
    if (f.drop base.length).take 2 = strL "_v" then
      let t := (f.drop base.length).drop 2
      if 5 ≤ t.length ∧ t.drop (t.length - 4) = strL ".xml" ∧
          (t.take (t.length - 4)).all Char.isDigit then
        some (digitsVal (t.take (t.length - 4)))
      else none
    else none
  else none

/-- Highest pre-existing version under the claim's pattern (0 when none). -/
def specMaxVersion (base : List Char) (files : List (List Char)) : Int :=
  files.foldl
    (fun m f =>
      match specVersionOf base f with
      | some v => max m (v : Int)
      | none => m)
    0

theorem pyReplaceAux_irrel (pat : List Char) :
    ∀ (f1 : Nat), ∀ (f2 : Nat) (s : List Char), s.length ≤ f1 →
      s.length ≤ f2 → pyReplaceAux pat f1 s = pyReplaceAux pat f2 s := by
  intro f1
  induction f1 with
  | zero =>
    intro f2 s h1 _
    have hs : s = [] := List.eq_nil_of_length_eq_zero (Nat.le_zero.1 h1)
    subst hs
    cases f2 <;> rfl
  | succ f ih =>
    intro f2 s h1 h2
    cases s with
    | nil => cases f2 <;> rfl
    | cons c cs =>
      cases f2 with
      | zero => simp at h2
      | succ f2p =>
        by_cases hcond : pat ≠ [] ∧ pat.isPrefixOf (c :: cs)
        · simp only [pyReplaceAux, if_pos hcond]
          apply ih
          · have := List.length_drop (pat.length - 1) cs
            simp only [List.length_cons] at h1
            omega
          · have := List.length_drop (pat.length - 1) cs
            simp only [List.length_cons] at h2
            omega
        · simp only [pyReplaceAux, if_neg hcond]
          have : cs.length ≤ f ∧ cs.length ≤ f2p := by
            simp only [List.length_cons] at h1 h2
            omega
          rw [ih f2p cs this.1 this.2]

theorem pyReplace_cons_pos {pat : List Char} {c : Char} {cs : List Char}
    (h : pat ≠ [] ∧ pat.isPrefixOf (c :: cs)) :
    pyReplace pat (c :: cs) = pyReplace pat (cs.drop (pat.length - 1)) := by
  unfold pyReplace
  simp only [List.length_cons, pyReplaceAux, if_pos h]
  apply pyReplaceAux_irrel
  · have := List.length_drop (pat.length - 1) cs
    omega
  · exact le_rfl

theorem pyReplace_cons_neg {pat : List Char} {c : Char} {cs : List Char}
    (h : ¬ (pat ≠ [] ∧ pat.isPrefixOf (c :: cs))) :
    pyReplace pat (c :: cs) = c :: pyReplace pat cs := by
  unfold pyReplace
  simp only [List.length_cons, pyReplaceAux, if_neg h]

theorem pyReplace_consume {pat : List Char} (hne : pat ≠ [])
    (rest : List Char) : pyReplace pat (pat ++ rest) = pyReplace pat rest := by
  cases pat with
  | nil => exact absurd rfl hne
  | cons p0 pt =>
    rw [List.cons_append]
    rw [pyReplace_cons_pos ⟨hne, by
      rw [List.isPrefixOf_iff_prefix]
      exact ⟨rest, by simp⟩⟩]
    congr 1
    simp only [List.length_cons, Nat.add_sub_cancel]
    exact List.drop_left pt rest

theorem pyReplace_id {pat s : List Char} (h : countOcc pat s = 0) :
    pyReplace pat s = s := by
  induction s with
  | nil => rfl
  | cons c cs ih =>
    rw [countOcc_cons] at h
    have hpref : (pat.isPrefixOf (c :: cs)) = false := by
      by_contra hB
      rw [Bool.not_eq_false] at hB
      rw [if_pos hB] at h
      omega
    have hcs : countOcc pat cs = 0 := by
      rw [hpref] at h
      simpa using h
    have hnc : ¬ (pat ≠ [] ∧ pat.isPrefixOf (c :: cs) = true) := by
      intro hc
      rw [hpref] at hc
      exact absurd hc.2 (by simp)
    rw [pyReplace_cons_neg hnc, ih hcs]

theorem pyReplace_append_not_head {h0 : Char} {pt x : List Char}
    (hx : h0 ∉ x) (y : List Char) :
    pyReplace (h0 :: pt) (x ++ y) = x ++ pyReplace (h0 :: pt) y := by
  induction x with
  | nil => rfl
  | cons a xs ih =>
    have ha : ¬ h0 = a := fun he => hx (he ▸ List.mem_cons_self a xs)
    have hxs : h0 ∉ xs := fun hm => hx (List.mem_cons_of_mem a hm)
    rw [List.cons_append]
    have hnc : ¬ ((h0 :: pt) ≠ [] ∧
        (h0 :: pt).isPrefixOf (a :: (xs ++ y)) = true) := by
      intro hc
      rw [isPrefixOf_cons_of_head_ne ha pt (xs ++ y)] at hc
      exact absurd hc.2 (by simp)
    rw [pyReplace_cons_neg hnc, ih hxs, List.cons_append]

theorem isPyWS_of_digit {c : Char} (h : c.isDigit = true) :
    isPyWS c = false := by
  by_contra hB
  rw [Bool.not_eq_false] at hB
  unfold isPyWS at hB
  simp only [Bool.or_eq_true, beq_iff_eq] at hB
  rcases hB with ((((h1 | h1) | h1) | h1) | h1) | h1 <;>
    (subst h1; exact absurd h (by decide))

theorem dropWhile_eq_self_of_all {p : Char → Bool} {s : List Char}
    (h : ∀ c ∈ s, p c = false) : s.dropWhile p = s := by
  cases s with
  | nil => rfl
  | cons c cs =>
    rw [List.dropWhile_cons, h c (List.mem_cons_self c cs)]
    simp

theorem stripWS_of_digits {s : List Char}
    (h : ∀ c ∈ s, c.isDigit = true) : stripWS s = s := by
  unfold stripWS
  rw [dropWhile_eq_self_of_all (fun c hc => isPyWS_of_digit (h c hc))]
  rw [dropWhile_eq_self_of_all (fun c hc =>
    isPyWS_of_digit (h c (List.mem_reverse.1 hc)))]
  exact List.reverse_reverse s

theorem digit_ne_underscore {c : Char} (h : c.isDigit = true) : ¬ c = '_' := by
  intro e
  rw [e] at h
  exact absurd h (by decide)

theorem pyDigitsAux_digits_eval {s : List Char}
    (h : ∀ c ∈ s, c.isDigit = true) :
    ∀ acc, pyDigitsAux acc s =
      some (s.foldl (fun a c => a * 10 + digitVal c) acc) := by
  induction s with
  | nil => intro acc; rfl
  | cons d rest ih =>
    intro acc
    have hd : d.isDigit = true := h d (List.mem_cons_self d rest)
    have hrest : ∀ c ∈ rest, c.isDigit = true :=
      fun c hc => h c (List.mem_cons_of_mem d hc)
    cases rest with
    | nil =>
      rw [show pyDigitsAux acc [d] =
        (if d = '_' then none
         else if d.isDigit then pyDigitsAux (acc * 10 + digitVal d) []
         else none) from rfl]
      rw [if_neg (digit_ne_underscore hd), if_pos hd]
      rfl
    | cons d2 rest2 =>
      rw [show pyDigitsAux acc (d :: d2 :: rest2) =
        (if d = '_' then
          (if d2.isDigit then pyDigitsAux (acc * 10 + digitVal d2) rest2
           else none)
         else if d.isDigit then
           pyDigitsAux (acc * 10 + digitVal d) (d2 :: rest2)
         else none) from rfl]
      rw [if_neg (digit_ne_underscore hd), if_pos hd]
      rw [ih hrest (acc * 10 + digitVal d)]
      rfl

theorem pyInt_digits {ds : List Char} (hne : ds ≠ [])
    (h : ∀ c ∈ ds, c.isDigit = true) : pyInt ds = some (digitsVal ds) := by
  unfold pyInt
  rw [stripWS_of_digits h]
  cases ds with
  | nil => exact absurd rfl hne
  | cons d rest =>
    have hd : d.isDigit = true := h d (List.mem_cons_self d rest)
    have hplus : ¬ d = '+' := by
      intro e; rw [e] at hd; exact absurd hd (by decide)
    have hminus : ¬ d = '-' := by
      intro e; rw [e] at hd; exact absurd hd (by decide)
    have hpd : pyDigits (d :: rest) = some (digitsVal (d :: rest)) := by
      rw [show pyDigits (d :: rest) =
        (if d.isDigit then pyDigitsAux (digitVal d) rest else none) from rfl]
      rw [if_pos hd]
      rw [pyDigitsAux_digits_eval (fun c hc => h c (List.mem_cons_of_mem d hc))]
      rw [show digitsVal (d :: rest) = List.foldl
        (fun a c => a * 10 + digitVal c) (0 * 10 + digitVal d) rest from rfl]
      simp
    split
    · rename_i rest2 heq
      exact absurd (List.head_eq_of_cons_eq heq) hplus
    · rename_i rest2 heq
      exact absurd (List.head_eq_of_cons_eq heq) hminus
    · rw [hpd]
      rfl

theorem digit_ne_dot {c : Char} (h : c.isDigit = true) : ¬ c = '.' := by
  intro e
  rw [e] at h
  exact absurd h (by decide)

theorem specVersionOf_pattern {base ds : List Char} (hds : ds ≠ [])
    (hdig : ∀ c ∈ ds, c.isDigit = true) :
    specVersionOf base (base ++ (strL "_v" ++ (ds ++ strL ".xml"))) =
      some (digitsVal ds) := by
  unfold specVersionOf
  have h1 : (base ++ (strL "_v" ++ (ds ++ strL ".xml"))).take base.length =
      base := List.take_left base _
  have h2 : (base ++ (strL "_v" ++ (ds ++ strL ".xml"))).drop base.length =
      strL "_v" ++ (ds ++ strL ".xml") := List.drop_left base _
  rw [if_pos h1, h2]
  have h3 : (strL "_v" ++ (ds ++ strL ".xml")).take 2 = strL "_v" := by
    rw [show (2 : Nat) = (strL "_v").length from rfl]
    exact List.take_left _ _
  rw [if_pos h3]
  have h4 : (strL "_v" ++ (ds ++ strL ".xml")).drop 2 = ds ++ strL ".xml" := by
    rw [show (2 : Nat) = (strL "_v").length from rfl]
    exact List.drop_left _ _
  rw [h4]
  have hlen : (ds ++ strL ".xml").length = ds.length + 4 := by
    simp [List.length_append]
    rfl
  have hdslen : 1 ≤ ds.length := List.length_pos.2 hds
  have h5 : (ds ++ strL ".xml").length - 4 = ds.length := by omega
  have h6 : (ds ++ strL ".xml").drop (ds.length) = strL ".xml" :=
    List.drop_left ds _
  have h7 : (ds ++ strL ".xml").take (ds.length) = ds := List.take_left ds _
  rw [if_pos]
  · rw [h5, h7]
  · refine ⟨by omega, ?_, ?_⟩
    · rw [h5, h6]
    · rw [h5, h7]
      exact List.all_eq_true.2 hdig

theorem specVersionOf_isSome_structure {base f : List Char} {v : Nat}
    (h : specVersionOf base f = some v) :
    base.isPrefixOf f = true ∧ (strL ".xml").isSuffixOf f = true := by
  unfold specVersionOf at h
  by_cases h1 : f.take base.length = base
  · rw [if_pos h1] at h
    by_cases h2 : (f.drop base.length).take 2 = strL "_v"
    · rw [if_pos h2] at h
      by_cases h3 : 5 ≤ ((f.drop base.length).drop 2).length ∧
          ((f.drop base.length).drop 2).drop
            (((f.drop base.length).drop 2).length - 4) = strL ".xml" ∧
          (((f.drop base.length).drop 2).take
            (((f.drop base.length).drop 2).length - 4)).all Char.isDigit
      · constructor
        · rw [List.isPrefixOf_iff_prefix]
          exact ⟨f.drop base.length, by
            conv_rhs => rw [← List.take_append_drop base.length f]
            rw [h1]⟩
        · rw [List.isSuffixOf_iff_suffix]
          rw [← h3.2.1]
          exact ((List.drop_suffix _ _).trans
            (List.drop_suffix _ _)).trans (List.drop_suffix _ _)
      · rw [if_neg h3] at h
        exact absurd h (by simp)
    · rw [if_neg h2] at h
      exact absurd h (by simp)
  · rw [if_neg h1] at h
    exact absurd h (by simp)

/-- One scanner iteration agrees with the claim's pattern on any filename that
either matches the pattern exactly (with the base name not reoccurring in
the `_v<digits>.xml` suffix) or fails the prefix/suffix filter. -/
theorem scan_step_eq_spec_step {base f : List Char}
    (Hf : (base.isPrefixOf f = true ∧ (strL ".xml").isSuffixOf f = true) →
      ∃ ds, ds ≠ [] ∧ (∀ c ∈ ds, c.isDigit = true) ∧
        f = base ++ (strL "_v" ++ (ds ++ strL ".xml")) ∧
        countOcc base (strL "_v" ++ (ds ++ strL ".xml")) = 0) :
    ∀ mv : Int,
      (if base.isPrefixOf f && (strL ".xml").isSuffixOf f then
        if (strL "_v").isPrefixOf (pyReplace (strL ".xml") (pyReplace base f))
        then
          match pyInt ((pyReplace (strL ".xml") (pyReplace base f)).drop 2) with
          | some v => max mv v
          | none => mv
        else mv
      else mv) =
      (match specVersionOf base f with
       | some v => max mv (v : Int)
       | none => mv) := by
  intro mv
  by_cases hcond : base.isPrefixOf f = true ∧ (strL ".xml").isSuffixOf f = true
  · obtain ⟨ds, hds, hdig, hf, hno⟩ := Hf hcond
    have hb_ne : base ≠ [] := by
      intro hb
      subst hb
      rw [show strL "_v" ++ (ds ++ strL ".xml") =
        '_' :: (('v' :: ds) ++ strL ".xml") from rfl] at hno
      rw [countOcc_cons] at hno
      simp only [List.isPrefixOf, if_pos] at hno
      omega
    have hrepl1 : pyReplace base f = strL "_v" ++ (ds ++ strL ".xml") := by
      rw [hf, pyReplace_consume hb_ne, pyReplace_id hno]
    have hdot : '.' ∉ strL "_v" ++ ds := by
      rw [List.mem_append]
      rintro (hm | hm)
      · exact absurd hm (by decide)
      · exact digit_ne_dot (hdig '.' hm) rfl
    have hself : pyReplace (strL ".xml") (strL ".xml") = [] := by
      have h0 := @pyReplace_consume (strL ".xml") (by decide) []
      rw [List.append_nil] at h0
      rw [h0]
      rfl
    have hrepl2 : pyReplace (strL ".xml") (strL "_v" ++ (ds ++ strL ".xml")) =
        strL "_v" ++ ds := by
      rw [show strL "_v" ++ (ds ++ strL ".xml") =
        (strL "_v" ++ ds) ++ strL ".xml" from (List.append_assoc _ _ _).symm]
      rw [show pyReplace (strL ".xml") ((strL "_v" ++ ds) ++ strL ".xml") =
        pyReplace ('.' :: strL "xml") ((strL "_v" ++ ds) ++ ('.' :: strL "xml"))
        from rfl]
      rw [pyReplace_append_not_head hdot]
      rw [show pyReplace ('.' :: strL "xml") ('.' :: strL "xml") =
        pyReplace (strL ".xml") (strL ".xml") from rfl]
      rw [hself, List.append_nil]
    have hvp : pyReplace (strL ".xml") (pyReplace base f) = strL "_v" ++ ds := by
      rw [hrepl1, hrepl2]
    have hpre2 : ((strL "_v").isPrefixOf (strL "_v" ++ ds)) = true := by
      rw [List.isPrefixOf_iff_prefix]
      exact List.prefix_append _ _
    have hdrop2 : (strL "_v" ++ ds).drop 2 = ds := rfl
    rw [hcond.1, hcond.2]
    simp only [Bool.and_self, if_true]
    rw [hvp, hpre2, if_pos rfl, hdrop2, pyInt_digits hds hdig]
    rw [hf, specVersionOf_pattern hds hdig]
    rfl
  · have hcc : ¬ ((base.isPrefixOf f && (strL ".xml").isSuffixOf f) = true) := by
      intro hab
      rw [Bool.and_eq_true] at hab
      exact hcond hab
    rw [if_neg hcc]
    cases hv : specVersionOf base f with
    | none => rfl
    | some v => exact absurd (specVersionOf_isSome_structure hv) hcond

/-- The scanner's maximum agrees with the claim's pattern maximum on a
directory whose candidate filenames all match the pattern exactly. -/
theorem scanVersions_eq_specMax {base : List Char} {files : List (List Char)}
    (H : ∀ f ∈ files,
      (base.isPrefixOf f = true ∧ (strL ".xml").isSuffixOf f = true) →
      ∃ ds, ds ≠ [] ∧ (∀ c ∈ ds, c.isDigit = true) ∧
        f = base ++ (strL "_v" ++ (ds ++ strL ".xml")) ∧
        countOcc base (strL "_v" ++ (ds ++ strL ".xml")) = 0) :
    scanVersions base files = specMaxVersion base files := by
  unfold scanVersions specMaxVersion
  apply List.foldl_ext
  intro mv f hf
  exact scan_step_eq_spec_step (H f hf) mv

theorem create_explicit (content base : List Char)
    (entries : List (List Char × List Char)) (v : Int) :
    create_versioned_file (some content) base (some entries) (some v) =
      (.ok (targetName base v, v),
       some (fsWrite entries (targetName base v) content)) := rfl

theorem create_scan (content base : List Char)
    (entries : List (List Char × List Char)) :
    create_versioned_file (some content) base (some entries) none =
      (.ok (targetName base
          (scanVersions base (entries.map (fun e => e.1)) + 1),
        scanVersions base (entries.map (fun e => e.1)) + 1),
       some (fsWrite entries (targetName base
          (scanVersions base (entries.map (fun e => e.1)) + 1)) content)) := rfl

theorem create_scan_nodir (content base : List Char) :
    create_versioned_file (some content) base none none =
      (.ok (targetName base 1, 1),
       some (fsWrite [] (targetName base 1) content)) := rfl

theorem emitLoop_succ_none {src : Option (List Char)} {base : List Char}
    {dir : Option (List (List Char × List Char))} {fname : List Char} {v : Int}
    {dir2 : Option (List (List Char × List Char))} (k : Nat)
    (hc : create_versioned_file src base dir none = (.ok (fname, v), dir2)) :
    emitLoop src base (k + 1) none dir =
      (match emitLoop src base k (some (v + 1)) dir2 with
       | .error _ => .error ()
       | .ok (vs, dfin) => .ok (v :: vs, dfin)) := by
  simp only [emitLoop, hc]

theorem emitLoop_succ_some {src : Option (List Char)} {base : List Char}
    {c : Int} {dir : Option (List (List Char × List Char))}
    {fname : List Char} {v : Int}
    {dir2 : Option (List (List Char × List Char))} (k : Nat)
    (hc : create_versioned_file src base dir (some c) = (.ok (fname, v), dir2)) :
    emitLoop src base (k + 1) (some c) dir =
      (match emitLoop src base k (some (c + 1)) dir2 with
       | .error _ => .error ()
       | .ok (vs, dfin) => .ok (v :: vs, dfin)) := by
  simp only [emitLoop, hc]

theorem emitLoop_explicit (content base : List Char) : ∀ (k : Nat) (c : Int)
    (entries : List (List Char × List Char)),
    ∃ dfin, emitLoop (some content) base k (some c) (some entries) =
      .ok ((List.range k).map (fun (i : Nat) => c + (i : Int)), dfin) := by
  intro k
  induction k with
  | zero => exact fun c entries => ⟨some entries, rfl⟩
  | succ kk ih =>
    intro c entries
    obtain ⟨dfin, hrec⟩ :=
      ih (c + 1) (fsWrite entries (targetName base c) content)
    refine ⟨dfin, ?_⟩
    rw [emitLoop_succ_some kk (create_explicit content base entries c)]
    rw [hrec]
    have hlist : (List.range (kk + 1)).map (fun (i : Nat) => c + (i : Int)) =
        c :: (List.range kk).map (fun (i : Nat) => c + 1 + (i : Int)) := by
      rw [List.range_succ_eq_map, List.map_cons, List.map_map]
      refine List.cons_eq_cons.2 ⟨by simp, ?_⟩
      apply List.map_congr_left
      intro i _
      simp only [Function.comp]
      push_cast
      ring
    rw [hlist]

theorem range_map_shift (c : Int) (k : Nat) :
    (List.range (k + 1)).map (fun (i : Nat) => c + (i : Int)) =
      c :: (List.range k).map (fun (i : Nat) => c + 1 + (i : Int)) := by
  rw [List.range_succ_eq_map, List.map_cons, List.map_map]
  refine List.cons_eq_cons.2 ⟨by simp, ?_⟩
  apply List.map_congr_left
  intro i _
  simp only [Function.comp]
  push_cast
  ring

/-- C4 (amended): emitting K files with no explicit starting version yields the
gap-free versions m+1, …, m+K — where m is the highest pre-existing version
matching `{baseName}_v<digits>.xml` (0 when the directory is absent) —
provided every pre-existing filename that starts with the base name and ends
in `.xml` matches that pattern exactly, with the base name not reoccurring
inside its `_v<digits>.xml` suffix. -/
theorem exigo_versions_monotonic (content base : List Char) (K : Nat)
    (entries : List (List Char × List Char))
    (Hdir : ∀ f ∈ entries.map (fun e => e.1),
      (base.isPrefixOf f = true ∧ (strL ".xml").isSuffixOf f = true) →
      ∃ ds, ds ≠ [] ∧ (∀ c ∈ ds, c.isDigit = true) ∧
        f = base ++ (strL "_v" ++ (ds ++ strL ".xml")) ∧
        countOcc base (strL "_v" ++ (ds ++ strL ".xml")) = 0) :
    (∃ dfin, emitLoop (some content) base K none (some entries) =
      .ok ((List.range K).map (fun (i : Nat) =>
        specMaxVersion base (entries.map (fun e => e.1)) + 1 + (i : Int)),
        dfin)) ∧
    (∃ dfin2, emitLoop (some content) base K none none =
      .ok ((List.range K).map (fun (i : Nat) => 1 + (i : Int)), dfin2)) := by
  constructor
  · cases K with
    | zero => exact ⟨some entries, rfl⟩
    | succ kk =>
      obtain ⟨dfin, hrec⟩ := emitLoop_explicit content base kk
        (scanVersions base (entries.map (fun e => e.1)) + 1 + 1)
        (fsWrite entries (targetName base
          (scanVersions base (entries.map (fun e => e.1)) + 1)) content)
      refine ⟨dfin, ?_⟩
      rw [emitLoop_succ_none kk (create_scan content base entries)]
      rw [hrec]
      rw [← scanVersions_eq_specMax Hdir]
      rw [range_map_shift]
  · cases K with
    | zero => exact ⟨none, rfl⟩
    | succ kk =>
      obtain ⟨dfin2, hrec⟩ := emitLoop_explicit content base kk (1 + 1)
        (fsWrite [] (targetName base 1) content)
      refine ⟨dfin2, ?_⟩
      rw [emitLoop_succ_none kk (create_scan_nodir content base)]
      rw [hrec]
      rw [range_map_shift]

/-- C4 (counterexample): with base name `1` and a directory holding exactly
`1_v11.xml`, the highest version matching `{baseName}_v<digits>.xml` is 11,
yet one no-explicit-version emission creates version 1, not 12: deleting all
occurrences of the base name `1` from `1_v11.xml` also destroys the digits,
so the scanner never parses the existing version. -/
theorem exigo_versions_counterexample :
    specMaxVersion (strL "1") [strL "1_v11.xml"] = 11 ∧
    emitLoop (some (strL "X")) (strL "1") 1 none
        (some [(strL "1_v11.xml", strL "OLD")]) =
      .ok ([1], some [(strL "1_v11.xml", strL "OLD"),
        (strL "1_v1.xml", strL "X")]) ∧
    (1 : Int) ≠ 11 + 1 :=
  ⟨by decide, rfl, by decide⟩

/-- Witness: C4 instantiated with the source docstring's own example name
`exigo_test_proper_v46.xml` and two emissions. -/
theorem exigo_versions_monotonic_witness :
    (∀ f ∈ ([(strL "exigo_test_proper_v46.xml", strL "OLD")].map
        (fun (e : List Char × List Char) => e.1)),
      ((strL "exigo_test_proper").isPrefixOf f = true ∧
        (strL ".xml").isSuffixOf f = true) →
      ∃ ds, ds ≠ [] ∧ (∀ c ∈ ds, c.isDigit = true) ∧
        f = strL "exigo_test_proper" ++ (strL "_v" ++ (ds ++ strL ".xml")) ∧
        countOcc (strL "exigo_test_proper")
          (strL "_v" ++ (ds ++ strL ".xml")) = 0) ∧
    ((∃ dfin, emitLoop (some (strL "NEW")) (strL "exigo_test_proper") 2 none
        (some [(strL "exigo_test_proper_v46.xml", strL "OLD")]) =
      .ok ((List.range 2).map (fun (i : Nat) =>
        specMaxVersion (strL "exigo_test_proper")
          ([(strL "exigo_test_proper_v46.xml", strL "OLD")].map
            (fun (e : List Char × List Char) => e.1)) + 1 + (i : Int)),
        dfin)) ∧
    (∃ dfin2, emitLoop (some (strL "NEW")) (strL "exigo_test_proper") 2 none
        none =
      .ok ((List.range 2).map (fun (i : Nat) => 1 + (i : Int)), dfin2))) := by
  have Hdir : ∀ f ∈ ([(strL "exigo_test_proper_v46.xml", strL "OLD")].map
      (fun (e : List Char × List Char) => e.1)),
      ((strL "exigo_test_proper").isPrefixOf f = true ∧
        (strL ".xml").isSuffixOf f = true) →
      ∃ ds, ds ≠ [] ∧ (∀ c ∈ ds, c.isDigit = true) ∧
        f = strL "exigo_test_proper" ++ (strL "_v" ++ (ds ++ strL ".xml")) ∧
        countOcc (strL "exigo_test_proper")
          (strL "_v" ++ (ds ++ strL ".xml")) = 0 := by
    intro f hf
    simp only [List.map, List.mem_singleton] at hf
    subst hf
    intro _
    exact ⟨strL "46", by decide, by decide, by decide, by decide⟩
  exact ⟨Hdir, exigo_versions_monotonic (strL "NEW") (strL "exigo_test_proper")
    2 [(strL "exigo_test_proper_v46.xml", strL "OLD")] Hdir⟩

theorem targetName_inj {base : List Char} {v w : Int}
    (he : targetName base v = targetName base w) : intStr v = intStr w := by
  unfold targetName at he
  simp only [List.append_assoc] at he
  have h1 := List.append_cancel_left he
  have h2 := List.append_cancel_left h1
  exact List.append_cancel_right h2

/-- C5: from an empty or absent target directory, emitting three files with no
explicit version creates exactly the three distinct names
`{base}_v1.xml`, `{base}_v2.xml`, `{base}_v3.xml`, each holding the template
content byte for byte. -/
theorem exigo_roundtrip (content base : List Char) :
    (emitLoop (some content) base 3 none (some []) =
      .ok ([1, 2, 3],
        some [(targetName base 1, content), (targetName base 2, content),
          (targetName base 3, content)]) ∧
     emitLoop (some content) base 3 none none =
      .ok ([1, 2, 3],
        some [(targetName base 1, content), (targetName base 2, content),
          (targetName base 3, content)])) ∧
    (targetName base 1 ≠ targetName base 2 ∧
     targetName base 1 ≠ targetName base 3 ∧
     targetName base 2 ≠ targetName base 3) ∧
    (targetName base 1 = base ++ strL "_v1.xml" ∧
     targetName base 2 = base ++ strL "_v2.xml" ∧
     targetName base 3 = base ++ strL "_v3.xml") := by
  have hne12 : targetName base 1 ≠ targetName base 2 :=
    fun he => absurd (targetName_inj he) (by decide)
  have hne13 : targetName base 1 ≠ targetName base 3 :=
    fun he => absurd (targetName_inj he) (by decide)
  have hne23 : targetName base 2 ≠ targetName base 3 :=
    fun he => absurd (targetName_inj he) (by decide)
  have hb12 : (targetName base 1 == targetName base 2) = false :=
    beq_eq_false_iff_ne.2 hne12
  have hb13 : (targetName base 1 == targetName base 3) = false :=
    beq_eq_false_iff_ne.2 hne13
  have hb23 : (targetName base 2 == targetName base 3) = false :=
    beq_eq_false_iff_ne.2 hne23
  have hw2 : fsWrite [(targetName base 1, content)] (targetName base 2)
      content =
      [(targetName base 1, content), (targetName base 2, content)] := by
    simp [fsWrite, List.filter_cons, hb12]
  have hw3 : fsWrite [(targetName base 1, content),
      (targetName base 2, content)] (targetName base 3) content =
      [(targetName base 1, content), (targetName base 2, content),
        (targetName base 3, content)] := by
    simp [fsWrite, List.filter_cons, hb13, hb23]
  have hA : emitLoop (some content) base 3 none (some []) =
      (match emitLoop (some content) base 2 (some 2)
          (some [(targetName base 1, content)]) with
       | .error _ => .error ()
       | .ok (vs, dfin) => .ok (1 :: vs, dfin)) := rfl
  have hA2 : emitLoop (some content) base 3 none none =
      (match emitLoop (some content) base 2 (some 2)
          (some [(targetName base 1, content)]) with
       | .error _ => .error ()
       | .ok (vs, dfin) => .ok (1 :: vs, dfin)) := rfl
  have hB : emitLoop (some content) base 2 (some 2)
      (some [(targetName base 1, content)]) =
      (match emitLoop (some content) base 1 (some 3)
          (some (fsWrite [(targetName base 1, content)] (targetName base 2)
            content)) with
       | .error _ => .error ()
       | .ok (vs, dfin) => .ok (2 :: vs, dfin)) := rfl
  have hC : emitLoop (some content) base 1 (some 3)
      (some [(targetName base 1, content), (targetName base 2, content)]) =
      (match emitLoop (some content) base 0 (some 4)
          (some (fsWrite [(targetName base 1, content),
            (targetName base 2, content)] (targetName base 3) content)) with
       | .error _ => .error ()
       | .ok (vs, dfin) => .ok (3 :: vs, dfin)) := rfl
  have hchain : emitLoop (some content) base 2 (some 2)
      (some [(targetName base 1, content)]) =
      .ok ([2, 3], some [(targetName base 1, content),
        (targetName base 2, content), (targetName base 3, content)]) := by
    rw [hB, hw2, hC, hw3]
    rfl
  refine ⟨⟨?_, ?_⟩, ⟨hne12, hne13, hne23⟩, ?_, ?_, ?_⟩
  · rw [hA, hchain]
  · rw [hA2, hchain]
  · simp only [targetName, List.append_assoc]
    rfl
  · simp only [targetName, List.append_assoc]
    rfl
  · simp only [targetName, List.append_assoc]
    rfl

/-- C8: the emitter errors exactly when the template is missing; on that error
the directory state is returned untouched (nothing created, nothing
written); with the template present it succeeds for every content, which is
never validated. -/
theorem exigo_missing_template (base : List Char)
    (dir : Option (List (List Char × List Char))) (ver : Option Int) :
    create_versioned_file none base dir ver = (.error (), dir) ∧
    (∀ content, ∃ name v entries2,
      create_versioned_file (some content) base dir ver =
        (.ok (name, v), some entries2)) := by
  refine ⟨rfl, fun content => ?_⟩
  cases dir with
  | none =>
    cases ver with
    | none => exact ⟨_, _, _, rfl⟩
    | some v => exact ⟨_, _, _, rfl⟩
  | some entries =>
    cases ver with
    | none => exact ⟨_, _, _, rfl⟩
    | some v => exact ⟨_, _, _, rfl⟩

theorem fsLookup_write_self (es : List (List Char × List Char))
    (n c : List Char) : fsLookup (fsWrite es n c) n = some c := by
  unfold fsLookup fsWrite
  induction es with
  | nil => simp [List.find?]
  | cons e es ih =>
    rw [List.filter_cons]
    by_cases hb : (!(e.1 == n)) = true
    · rw [if_pos hb]
      have hne : (e.1 == n) = false := by
        revert hb
        cases e.1 == n <;> simp
      rw [List.cons_append, List.find?_cons, hne]
      exact ih
    · rw [if_neg hb]
      exact ih

theorem fsWrite_filter_other (es : List (List Char × List Char))
    (n c : List Char) :
    (fsWrite es n c).filter (fun e => !(e.1 == n)) =
      es.filter (fun e => !(e.1 == n)) := by
  unfold fsWrite
  rw [List.filter_append]
  have h2 : ([(n, c)].filter (fun (e : List Char × List Char) =>
      !(e.1 == n))) = [] := by simp
  rw [h2, List.append_nil]
  induction es with
  | nil => rfl
  | cons e es ih =>
    rw [List.filter_cons]
    by_cases hb : (!(e.1 == n)) = true
    · rw [if_pos hb, List.filter_cons, if_pos hb, ih]
    · rw [if_neg hb]
      exact ih

/-- C10: with a caller-supplied version the emitter writes
`{base}_v{version}.xml` with no directory rescan and no collision check: the
produced name and version depend only on the arguments, the file afterwards
holds the new content (silently overwriting any existing entry of that
name), and all other entries are untouched. -/
theorem exigo_explicit_version_overwrites (base content : List Char)
    (entries : List (List Char × List Char)) (v : Int) :
    create_versioned_file (some content) base (some entries) (some v) =
      (.ok (targetName base v, v),
        some (fsWrite entries (targetName base v) content)) ∧
    fsLookup (fsWrite entries (targetName base v) content)
      (targetName base v) = some content ∧
    (fsWrite entries (targetName base v) content).filter
        (fun e => !(e.1 == targetName base v)) =
      entries.filter (fun e => !(e.1 == targetName base v)) :=
  ⟨rfl, fsLookup_write_self entries (targetName base v) content,
    fsWrite_filter_other entries (targetName base v) content⟩

/-- The three instruments `test_devices.py` can exercise. -/
inductive Device where
  | exigo
  | healvet
  | pointcare
deriving DecidableEq, Repr

/-- The `tests` list of `main`, appended in the source's fixed order from the
three selection flags. -/
def selectedTests (exigoSel healvetSel pointcareSel : Bool) : List Device :=
  (if exigoSel then [Device.exigo] else []) ++
    (if healvetSel then [Device.healvet] else []) ++
    (if pointcareSel then [Device.pointcare] else [])

/-- Sequential mode: run each selected test in order, record its result, and
continue with the remaining tests even after a failure. -/
def runSequential (tests : List Device) (outcome : Device → Bool) :
    List (Device × Bool) :=
  tests.foldl (fun acc d => acc ++ [(d, outcome d)]) []

/-- Parallel mode: start every selected test (each process's success is its
exit status), then wait for each in launch order, recording results. -/
def runParallel (tests : List Device) (outcome : Device → Bool) :
    List (Device × Bool) :=
  (tests.map (fun d => (d, outcome d))).foldl (fun acc r => acc ++ [r]) []

/-- Exit status chosen from `all(results.values())`. -/
def orchestratorExit (results : List (Device × Bool)) : Nat :=
  if results.all (fun r => r.2) then 0 else 1

/-- Embeds `main` of `test_devices.py`: exit 1 with no summary when nothing is
selected, otherwise the per-device summary in selection order and the
aggregate exit status, in the requested concurrency mode. -/
def test_devices_main (exigoSel healvetSel pointcareSel parallel : Bool)
    (outcome : Device → Bool) : List (Device × Bool) × Nat :=
  let tests := selectedTests exigoSel healvetSel pointcareSel
  if tests.isEmpty then ([], 1)
  else
    let results :=
      if parallel then runParallel tests outcome
      else runSequential tests outcome
    (results, orchestratorExit results)

theorem foldl_append_singleton {α : Type} (L : List α) :
    ∀ acc : List α, L.foldl (fun a r => a ++ [r]) acc = acc ++ L := by
  induction L with
  | nil => intro acc; simp
  | cons x xs ih =>
    intro acc
    rw [List.foldl_cons, ih]
    simp

theorem runSequential_eq_map (tests : List Device) (outcome : Device → Bool) :
    runSequential tests outcome = tests.map (fun d => (d, outcome d)) := by
  unfold runSequential
  have h : ∀ acc, tests.foldl (fun acc d => acc ++ [(d, outcome d)]) acc =
      acc ++ tests.map (fun d => (d, outcome d)) := by
    induction tests with
    | nil => intro acc; simp
    | cons x xs ih =>
      intro acc
      rw [List.foldl_cons, ih]
      simp
  simpa using h []

theorem runParallel_eq_map (tests : List Device) (outcome : Device → Bool) :
    runParallel tests outcome = tests.map (fun d => (d, outcome d)) := by
  unfold runParallel
  simpa using foldl_append_singleton (tests.map (fun d => (d, outcome d))) []

/-- C6: with at least one instrument selected, the orchestrator exits 0 exactly
when every selected runner succeeds and 1 otherwise, the printed summary has
exactly one pass/fail entry per selected instrument (in selection order,
with that instrument's own outcome), and in sequential mode every selected
runner executes and is reported even when an earlier one fails. -/
theorem orchestrator_aggregate (e h p parallel : Bool)
    (outcome : Device → Bool) (hsel : selectedTests e h p ≠ []) :
    ((test_devices_main e h p parallel outcome).2 = 0 ↔
      ∀ d ∈ selectedTests e h p, outcome d = true) ∧
    ((test_devices_main e h p parallel outcome).2 = 1 ↔
      ¬ ∀ d ∈ selectedTests e h p, outcome d = true) ∧
    (test_devices_main e h p parallel outcome).1 =
      (selectedTests e h p).map (fun d => (d, outcome d)) ∧
    (test_devices_main e h p false outcome).1.length =
      (selectedTests e h p).length ∧
    (∀ d ∈ selectedTests e h p,
      (d, outcome d) ∈ (test_devices_main e h p false outcome).1) := by
  have hres : ∀ (mode : Bool), (test_devices_main e h p mode outcome).1 =
      (selectedTests e h p).map (fun d => (d, outcome d)) := by
    intro mode
    unfold test_devices_main
    rw [if_neg (by simpa [List.isEmpty_iff] using hsel)]
    cases mode
    · simp [runSequential_eq_map]
    · simp [runParallel_eq_map]
  have hexit : (test_devices_main e h p parallel outcome).2 =
      orchestratorExit ((selectedTests e h p).map
        (fun d => (d, outcome d))) := by
    unfold test_devices_main
    rw [if_neg (by simpa [List.isEmpty_iff] using hsel)]
    cases parallel
    · simp [runSequential_eq_map]
    · simp [runParallel_eq_map]
  have hall : ∀ (L : List Device),
      ((L.map (fun d => (d, outcome d))).all (fun r => r.2)) =
        L.all (fun d => outcome d) := by
    intro L
    induction L with
    | nil => rfl
    | cons x xs ih => simp [List.all_cons, ih]
  refine ⟨?_, ?_, hres parallel, by rw [hres false]; simp, ?_⟩
  · rw [hexit]
    unfold orchestratorExit
    rw [hall]
    by_cases hA : (selectedTests e h p).all (fun d => outcome d) = true
    · rw [if_pos hA]
      exact iff_of_true rfl (fun d hd => List.all_eq_true.1 hA d hd)
    · rw [if_neg hA]
      exact iff_of_false (by omega)
        (fun hP => hA (List.all_eq_true.2 hP))
  · rw [hexit]
    unfold orchestratorExit
    rw [hall]
    by_cases hA : (selectedTests e h p).all (fun d => outcome d) = true
    · rw [if_pos hA]
      exact iff_of_false (by omega)
        (not_not_intro (fun d hd => List.all_eq_true.1 hA d hd))
    · rw [if_neg hA]
      exact iff_of_true rfl (fun hP => hA (List.all_eq_true.2 hP))
  · intro d hd
    rw [hres false]
    exact List.mem_map.2 ⟨d, hd, rfl⟩

/-- Witness: C6 with all three instruments selected sequentially and the
healvet runner failing. -/
theorem orchestrator_aggregate_witness :
    (selectedTests true true true ≠ []) ∧
    (((test_devices_main true true true false
        (fun d => match d with
          | Device.healvet => false
          | _ => true)).2 = 0 ↔
      ∀ d ∈ selectedTests true true true,
        (fun d => match d with
          | Device.healvet => false
          | _ => true) d = true) ∧
    ((test_devices_main true true true false
        (fun d => match d with
          | Device.healvet => false
          | _ => true)).2 = 1 ↔
      ¬ ∀ d ∈ selectedTests true true true,
        (fun d => match d with
          | Device.healvet => false
          | _ => true) d = true) ∧
    (test_devices_main true true true false
        (fun d => match d with
          | Device.healvet => false
          | _ => true)).1 =
      (selectedTests true true true).map (fun d => (d,
        (fun d => match d with
          | Device.healvet => false
          | _ => true) d)) ∧
    (test_devices_main true true true false
        (fun d => match d with
          | Device.healvet => false
          | _ => true)).1.length =
      (selectedTests true true true).length ∧
    (∀ d ∈ selectedTests true true true,
      (d, (fun d => match d with
        | Device.healvet => false
        | _ => true) d) ∈ (test_devices_main true true true false
          (fun d => match d with
            | Device.healvet => false
            | _ => true)).1)) :=
  ⟨by decide, orchestrator_aggregate true true true false
    (fun d => match d with
      | Device.healvet => false
      | _ => true) (by decide)⟩

/-- C9: for the same selected instruments and the same per-instrument
underlying outcomes, parallel and sequential modes produce the identical
per-instrument summary and the identical exit status. -/
theorem orchestrator_modes_equivalent (e h p : Bool)
    (outcome : Device → Bool) :
    test_devices_main e h p true outcome =
      test_devices_main e h p false outcome := by
  unfold test_devices_main
  by_cases hE : (selectedTests e h p).isEmpty
  · rw [if_pos hE, if_pos hE]
  · rw [if_neg hE, if_neg hE]
    simp [runParallel_eq_map, runSequential_eq_map]

/-- State of a `UnixSerialBridge`: whether a socat helper was spawned and is
still alive, which filesystem paths currently exist, and the two configured
port paths. -/
structure UnixBridgeState where
  procSpawned : Bool
  procAlive : Bool
  links : List Char → Bool
  appPort : List Char
  testPort : List Char

/-- Terminating the helper process can raise once the process is gone; the
caller's `except` swallows it (the `kill` fallback is likewise swallowed). -/
def terminateOp (alive : Bool) : Except Unit Bool :=
  if alive then .ok false else .error ()

/-- Unlinking raises when the path is already gone. -/
def unlinkOp (links : List Char → Bool) (p : List Char) :
    Except Unit (List Char → Bool) :=
  if links p then .ok (fun q => if q = p then false else links q)
  else .error ()

/-- The per-port cleanup of `UnixSerialBridge.close`:
`if os.path.exists(port): try: os.unlink(port) except: pass`. -/
def closeLink (links : List Char → Bool) (p : List Char) :
    List Char → Bool :=
  if links p then
    match unlinkOp links p with
    | .ok l2 => l2
    | .error _ => links
  else links

/-- Embeds `UnixSerialBridge.close`: terminate the socat process when one was
spawned (errors swallowed, kill fallback swallowed), then unlink each of the
two port paths that still exists (errors swallowed). -/
def unixBridgeClose (s : UnixBridgeState) : UnixBridgeState :=
  let alive2 :=
    if s.procSpawned then
      match terminateOp s.procAlive with
      | .ok a => a
      | .error _ => false
    else s.procAlive
  { s with procAlive := alive2,
           links := closeLink (closeLink s.links s.appPort) s.testPort }

/-- State of a `WindowsSerialBridge`: the two fallback sockets (absent on the
com0com path, else open or closed) and the `running` flag. -/
structure WinBridgeState where
  serverSock : Option Bool
  clientSock : Option Bool
  running : Bool
deriving DecidableEq

/-- Closing a socket raises once it is gone; the `except` swallows it. -/
def sockCloseOp (isOpen : Bool) : Except Unit Bool :=
  if isOpen then .ok false else .error ()

/-- The per-socket cleanup of `WindowsSerialBridge.close`:
`if sock: try: sock.close() except: pass`. -/
def closeSock (sock : Option Bool) : Option Bool :=
  match sock with
  | none => none
  | some o =>
    match sockCloseOp o with
    | .ok o2 => some o2
    | .error _ => some o

/-- Embeds `WindowsSerialBridge.close`: clear `running`, close both sockets,
swallowing errors from already-closed ones. -/
def winBridgeClose (w : WinBridgeState) : WinBridgeState :=
  { serverSock := closeSock w.serverSock,
    clientSock := closeSock w.clientSock,
    running := false }

theorem closeLink_self (links : List Char → Bool) (p : List Char) :
    closeLink links p p = false := by
  unfold closeLink unlinkOp
  by_cases h : links p = true
  · simp [h]
  · simp at h
    simp [h]

theorem closeLink_preserves_false {links : List Char → Bool}
    {q : List Char} (hq : links q = false) (p : List Char) :
    closeLink links p q = false := by
  unfold closeLink unlinkOp
  by_cases h : links p = true
  · simp only [h, if_pos]
    by_cases hqp : q = p
    · simp [hqp]
    · simp [hqp, hq]
  · simp at h
    simp [h, hq]

theorem closeLink_absent {links : List Char → Bool} {p : List Char}
    (h : links p = false) : closeLink links p = links := by
  unfold closeLink
  rw [h]
  simp

theorem closeSock_closeSock (sock : Option Bool) :
    closeSock (closeSock sock) = closeSock sock := by
  cases sock with
  | none => rfl
  | some o => cases o <;> rfl

theorem closeSock_not_open (sock : Option Bool) :
    closeSock sock ≠ some true := by
  cases sock with
  | none => simp [closeSock]
  | some o => cases o <;> simp [closeSock, sockCloseOp]

/-- C7: bridge teardown is idempotent and complete on both platforms — a
second close after a first is a no-op that raises nothing (every fallible
step is guarded or swallowed), the two configured port paths have no
remaining filesystem link after either close, and the fallback sockets are
never left open. -/
theorem bridge_close_idempotent (s : UnixBridgeState) (w : WinBridgeState) :
    (unixBridgeClose (unixBridgeClose s) = unixBridgeClose s ∧
     (unixBridgeClose s).links s.appPort = false ∧
     (unixBridgeClose s).links s.testPort = false ∧
     (unixBridgeClose (unixBridgeClose s)).links s.appPort = false ∧
     (unixBridgeClose (unixBridgeClose s)).links s.testPort = false) ∧
    (winBridgeClose (winBridgeClose w) = winBridgeClose w ∧
     (winBridgeClose w).serverSock ≠ some true ∧
     (winBridgeClose w).clientSock ≠ some true ∧
     (winBridgeClose w).running = false) := by
  have happ : (unixBridgeClose s).links s.appPort = false :=
    closeLink_preserves_false (closeLink_self s.links s.appPort) s.testPort
  have htest : (unixBridgeClose s).links s.testPort = false :=
    closeLink_self (closeLink s.links s.appPort) s.testPort
  have happE : (closeLink (closeLink s.links s.appPort) s.testPort)
      s.appPort = false := happ
  have htestE : (closeLink (closeLink s.links s.appPort) s.testPort)
      s.testPort = false := htest
  have hidem : unixBridgeClose (unixBridgeClose s) = unixBridgeClose s := by
    unfold unixBridgeClose
    simp only
    congr 1
    · by_cases hsp : s.procSpawned = true
      · by_cases hpa : s.procAlive = true
        · simp [hsp, hpa, terminateOp]
        · simp at hpa
          simp [hsp, hpa, terminateOp]
      · simp at hsp
        simp [hsp]
    · rw [closeLink_absent happE, closeLink_absent htestE]
  refine ⟨⟨hidem, happ, htest, ?_, ?_⟩,
    ⟨?_, closeSock_not_open w.serverSock, closeSock_not_open w.clientSock,
      rfl⟩⟩
  · rw [hidem]
    exact happ
  · rw [hidem]
    exact htest
  · unfold winBridgeClose
    simp only
    rw [closeSock_closeSock, closeSock_closeSock]
